import Mathlib

/-!
Shallow embedding of the in-memory user record store of `src/context.rs`
(`UsersState` and its five operations), together with the axum handler shims
that wrap `get_user`'s `Option` result into a `MissingUser` error.

Modelling choices:
* `u64` is modelled as `Nat`; the counter bump `*counter_guard += 1` wraps at
  `2^64`, so the embedding takes `(counter + 1) % 2^64` (release-mode Rust
  wrapping semantics).
* `HashMap<u64, UserWithoutId>` is modelled as an association list
  `List (Nat × UserWithoutId)`: `lookupKey` returns the first binding,
  `insertKey` replaces an existing binding in place or appends a new one,
  `removeKey` removes the binding (matching `HashMap::insert` / `remove` /
  `get` / `get_mut` on the states reachable from `UsersState::new`, whose
  key lists never contain duplicates).
* Methods taking `&mut`-like access to the locked map are state-passing
  functions `UsersState → result × UsersState`; read-only methods
  (`get_users`, `get_user`) return their result and leave the state alone,
  exactly as the Rust methods never write through the guard.
-/

structure UserWithoutId where
  name : String
  email : String
deriving DecidableEq, Repr

structure User where
  id : Nat
  name : String
  email : String
deriving DecidableEq, Repr

structure UpdateUserRequest where
  name : Option String
  email : Option String
deriving DecidableEq, Repr

structure MissingUser where
  id : Nat
deriving DecidableEq, Repr

structure UsersState where
  users : List (Nat × UserWithoutId)
  counter : Nat
deriving DecidableEq, Repr

/-- `HashMap::get`: first binding for `k`, if any. -/
def lookupKey (m : List (Nat × UserWithoutId)) (k : Nat) : Option UserWithoutId :=
  match m with
  | [] => none
  | (k', v) :: rest => if k' = k then some v else lookupKey rest k

/-- `HashMap::insert` / writing through `get_mut`: replace the binding for `k`
in place, or append it when absent. -/
def insertKey (m : List (Nat × UserWithoutId)) (k : Nat) (v : UserWithoutId) :
    List (Nat × UserWithoutId) :=
  match m with
  | [] => [(k, v)]
  | (k', v') :: rest => if k' = k then (k, v) :: rest else (k', v') :: insertKey rest k v

/-- `HashMap::remove`: drop the binding for `k`, if any (a `HashMap` holds at
most one binding per key, so dropping every occurrence coincides with it). -/
def removeKey (m : List (Nat × UserWithoutId)) (k : Nat) : List (Nat × UserWithoutId) :=
  match m with
  | [] => []
  | (k', v') :: rest => if k' = k then removeKey rest k else (k', v') :: removeKey rest k

/-- `UsersState::new`. -/
def UsersState.new : UsersState :=
  { users := [], counter := 0 }

/-- `UsersState::get_users`. -/
def UsersState.get_users (s : UsersState) : List User :=
  s.users.map fun p => { id := p.1, name := p.2.name, email := p.2.email }

/-- `UsersState::get_user`. -/
def UsersState.get_user (s : UsersState) (id : Nat) : Option User :=
  (lookupKey s.users id).map fun u => { id := id, name := u.name, email := u.email }

/-- `UsersState::create_user`: bump the counter (wrapping at `2^64`), insert the
record under the new counter value, return that value. -/
def UsersState.create_user (s : UsersState) (user : UserWithoutId) : Nat × UsersState :=
  let counter := (s.counter + 1) % 2 ^ 64
  let id := counter
  (id, { users := insertKey s.users id user, counter := counter })

/-- `UsersState::update_user`: if `id` is bound, overwrite exactly the fields
present in the request; otherwise fail with `MissingUser { id }`. -/
def UsersState.update_user (s : UsersState) (id : Nat) (update : UpdateUserRequest) :
    Except MissingUser Unit × UsersState :=
  match lookupKey s.users id with
  | some user =>
      let user1 := match update.name with
        | some name => { user with name := name }
        | none => user
      let user2 := match update.email with
        | some email => { user1 with email := email }
        | none => user1
      (Except.ok (), { s with users := insertKey s.users id user2 })
  | none => (Except.error { id := id }, s)

/-- `UsersState::delete_user`: remove the binding for `id` if present,
otherwise fail with `MissingUser { id }`. -/
def UsersState.delete_user (s : UsersState) (id : Nat) : Except MissingUser Unit × UsersState :=
  match lookupKey s.users id with
  | some _ => (Except.ok (), { s with users := removeKey s.users id })
  | none => (Except.error { id := id }, s)

/-- The axum handler `get_user` (src/context.rs:499): wraps the store's
`Option` result into `MissingUser { id }` on `None`. -/
def getUserHandler (s : UsersState) (id : Nat) : Except MissingUser User :=
  match s.get_user id with
  | some user => Except.ok user
  | none => Except.error { id := id }

/-- One store call, for reasoning about sequences of operations on a single
store instance. -/
inductive Op where
  | list : Op
  | get (id : Nat) : Op
  | create (user : UserWithoutId) : Op
  | update (id : Nat) (request : UpdateUserRequest) : Op
  | delete (id : Nat) : Op
deriving DecidableEq, Repr

/-- The state after one operation. -/
def applyOp (s : UsersState) : Op → UsersState
  | Op.list => s
  | Op.get _ => s
  | Op.create u => (s.create_user u).2
  | Op.update id r => (s.update_user id r).2
  | Op.delete id => (s.delete_user id).2

/-- Run a sequence of operations; return the final state and the list of
identifiers returned by the `create` calls, in call order. -/
def runTrace (s : UsersState) : List Op → UsersState × List Nat
  | [] => (s, [])
  | Op.create u :: rest =>
      let p := s.create_user u
      let q := runTrace p.2 rest
      (q.1, p.1 :: q.2)
  | op :: rest => runTrace (applyOp s op) rest

/-- Number of `create` calls in a sequence. -/
def numCreates : List Op → Nat
  | [] => 0
  | Op.create _ :: rest => numCreates rest + 1
  | _ :: rest => numCreates rest

/-- Store invariant: every key in the mapping is at most the counter's
last-issued value. -/
def WF (s : UsersState) : Prop :=
  ∀ p ∈ s.users, p.1 ≤ s.counter

/-! ### Association-list lemmas -/

theorem lookupKey_insertKey_self (m : List (Nat × UserWithoutId)) (k : Nat)
    (v : UserWithoutId) : lookupKey (insertKey m k v) k = some v := by
  induction m with
  | nil => simp [insertKey, lookupKey]
  | cons p rest ih =>
    obtain ⟨k', v'⟩ := p
    by_cases hk : k' = k
    · simp [insertKey, lookupKey, hk]
    · simp [insertKey, lookupKey, hk, ih]

theorem lookupKey_insertKey_ne (m : List (Nat × UserWithoutId)) (k j : Nat)
    (v : UserWithoutId) (h : j ≠ k) : lookupKey (insertKey m k v) j = lookupKey m j := by
  have hkj : ¬k = j := fun hh => h hh.symm
  induction m with
  | nil => simp [insertKey, lookupKey, hkj]
  | cons p rest ih =>
    obtain ⟨k', v'⟩ := p
    by_cases hk : k' = k
    · subst hk
      simp [insertKey, lookupKey, hkj]
    · simp [insertKey, lookupKey, hk, ih]

theorem lookupKey_some_mem (m : List (Nat × UserWithoutId)) (k : Nat)
    (v : UserWithoutId) (h : lookupKey m k = some v) : (k, v) ∈ m := by
  induction m with
  | nil => simp [lookupKey] at h
  | cons p rest ih =>
    obtain ⟨k', v'⟩ := p
    by_cases hk : k' = k
    · subst hk
      simp [lookupKey] at h
      simp [h]
    · simp [lookupKey, hk] at h
      exact List.mem_cons_of_mem _ (ih h)

theorem lookupKey_removeKey_self (m : List (Nat × UserWithoutId)) (k : Nat) :
    lookupKey (removeKey m k) k = none := by
  induction m with
  | nil => simp [removeKey, lookupKey]
  | cons p rest ih =>
    obtain ⟨k', v'⟩ := p
    by_cases hk : k' = k
    · simp [removeKey, hk, ih]
    · simp [removeKey, lookupKey, hk, ih]

theorem lookupKey_removeKey_none (m : List (Nat × UserWithoutId)) (j k : Nat)
    (h : lookupKey m k = none) : lookupKey (removeKey m j) k = none := by
  induction m with
  | nil => simp [removeKey, lookupKey]
  | cons p rest ih =>
    obtain ⟨k', v'⟩ := p
    by_cases hk : k' = k
    · simp [lookupKey, hk] at h
    · simp [lookupKey, hk] at h
      by_cases hj : k' = j
      · simp [removeKey, hj, ih h]
      · simp [removeKey, lookupKey, hj, hk, ih h]

theorem mem_insertKey (m : List (Nat × UserWithoutId)) (k : Nat) (v : UserWithoutId)
    (p : Nat × UserWithoutId) (h : p ∈ insertKey m k v) : p ∈ m ∨ p = (k, v) := by
  induction m with
  | nil =>
    simp [insertKey] at h
    exact Or.inr h
  | cons q rest ih =>
    obtain ⟨k', v'⟩ := q
    by_cases hk : k' = k
    · simp [insertKey, hk] at h
      rcases h with h | h
      · exact Or.inr h
      · exact Or.inl (List.mem_cons_of_mem _ h)
    · simp [insertKey, hk] at h
      rcases h with h | h
      · exact Or.inl (by simp [h])
      · rcases ih h with h' | h'
        · exact Or.inl (List.mem_cons_of_mem _ h')
        · exact Or.inr h'

theorem mem_removeKey (m : List (Nat × UserWithoutId)) (k : Nat)
    (p : Nat × UserWithoutId) (h : p ∈ removeKey m k) : p ∈ m := by
  induction m with
  | nil => simp [removeKey] at h
  | cons q rest ih =>
    obtain ⟨k', v'⟩ := q
    by_cases hk : k' = k
    · simp [removeKey, hk] at h
      exact List.mem_cons_of_mem _ (ih h)
    · simp [removeKey, hk] at h
      rcases h with h | h
      · simp [h]
      · exact List.mem_cons_of_mem _ (ih h)

theorem insertKey_lookup_self (m : List (Nat × UserWithoutId)) (k : Nat)
    (v : UserWithoutId) (h : lookupKey m k = some v) : insertKey m k v = m := by
  induction m with
  | nil => simp [lookupKey] at h
  | cons q rest ih =>
    obtain ⟨k', v'⟩ := q
    by_cases hk : k' = k
    · subst hk
      simp [lookupKey] at h
      simp [insertKey, h]
    · simp [lookupKey, hk] at h
      simp [insertKey, hk, ih h]

/-! ### Single-operation facts -/

theorem counter_update_user (s : UsersState) (id : Nat) (r : UpdateUserRequest) :
    (s.update_user id r).2.counter = s.counter := by
  cases h : lookupKey s.users id <;> simp [UsersState.update_user, h]

theorem counter_delete_user (s : UsersState) (id : Nat) :
    (s.delete_user id).2.counter = s.counter := by
  cases h : lookupKey s.users id <;> simp [UsersState.delete_user, h]

theorem notfound_of_lookup_none (s : UsersState) (id : Nat) (r : UpdateUserRequest)
    (h : lookupKey s.users id = none) :
    getUserHandler s id = Except.error { id := id } ∧
      s.update_user id r = (Except.error { id := id }, s) ∧
      s.delete_user id = (Except.error { id := id }, s) := by
  refine ⟨?_, ?_, ?_⟩ <;>
    simp [getUserHandler, UsersState.get_user, UsersState.update_user,
      UsersState.delete_user, h]

/-! ### Trace lemmas -/

theorem trace_preserves_gone (s : UsersState) (k : Nat) (ops : List Op)
    (hk : lookupKey s.users k = none) (hle : k ≤ s.counter)
    (hov : s.counter + numCreates ops < 2 ^ 64) :
    lookupKey (runTrace s ops).1.users k = none ∧
      k ≤ (runTrace s ops).1.counter ∧ k ∉ (runTrace s ops).2 := by
  induction ops generalizing s with
  | nil => simpa [runTrace] using ⟨hk, hle⟩
  | cons op rest ih =>
    cases op with
    | list =>
      simp only [runTrace, applyOp]
      exact ih s hk hle (by simpa [numCreates] using hov)
    | get id =>
      simp only [runTrace, applyOp]
      exact ih s hk hle (by simpa [numCreates] using hov)
    | create u =>
      have hnc : numCreates (Op.create u :: rest) = numCreates rest + 1 := rfl
      have hc1 : s.counter + 1 < 2 ^ 64 := by omega
      have hid : (s.counter + 1) % 2 ^ 64 = s.counter + 1 := Nat.mod_eq_of_lt hc1
      have hkne : k ≠ s.counter + 1 := by omega
      have hk' : lookupKey (insertKey s.users (s.counter + 1) u) k = none :=
        (lookupKey_insertKey_ne s.users (s.counter + 1) k u hkne).trans hk
      have hmain := ih (UsersState.mk (insertKey s.users (s.counter + 1) u)
          (s.counter + 1)) hk' (show k ≤ s.counter + 1 by omega)
          (show s.counter + 1 + numCreates rest < 2 ^ 64 by omega)
      simp only [runTrace, UsersState.create_user, hid]
      refine ⟨hmain.1, hmain.2.1, ?_⟩
      simp only [List.mem_cons, not_or]
      exact ⟨hkne, hmain.2.2⟩
    | update id r =>
      have hnc : numCreates (Op.update id r :: rest) = numCreates rest := rfl
      simp only [runTrace, applyOp]
      cases hl : lookupKey s.users id with
      | none =>
        have hs : (s.update_user id r).2 = s := by simp [UsersState.update_user, hl]
        rw [hs]
        exact ih s hk hle (by omega)
      | some u =>
        have hne : id ≠ k := fun hh => by rw [hh] at hl; rw [hl] at hk; cases hk
        have hkne : k ≠ id := fun hh => hne hh.symm
        have hk' : lookupKey (s.update_user id r).2.users k = none := by
          simp only [UsersState.update_user, hl]
          exact (lookupKey_insertKey_ne s.users id k _ hkne).trans hk
        exact ih (s.update_user id r).2 hk'
          (by rw [counter_update_user]; exact hle)
          (by rw [counter_update_user]; omega)
    | delete id =>
      have hnc : numCreates (Op.delete id :: rest) = numCreates rest := rfl
      simp only [runTrace, applyOp]
      cases hl : lookupKey s.users id with
      | none =>
        have hs : (s.delete_user id).2 = s := by simp [UsersState.delete_user, hl]
        rw [hs]
        exact ih s hk hle (by omega)
      | some u =>
        have hk' : lookupKey (s.delete_user id).2.users k = none := by
          simp only [UsersState.delete_user, hl]
          exact lookupKey_removeKey_none s.users id k hk
        exact ih (s.delete_user id).2 hk'
          (by rw [counter_delete_user]; exact hle)
          (by rw [counter_delete_user]; omega)

theorem trace_ids_increasing (s : UsersState) (ops : List Op)
    (hov : s.counter + numCreates ops < 2 ^ 64) :
    (∀ i ∈ (runTrace s ops).2, s.counter < i) ∧
      List.Chain' (· < ·) (runTrace s ops).2 := by
  induction ops generalizing s with
  | nil => simp [runTrace]
  | cons op rest ih =>
    cases op with
    | list =>
      simp only [runTrace, applyOp]
      exact ih s (by simpa [numCreates] using hov)
    | get id =>
      simp only [runTrace, applyOp]
      exact ih s (by simpa [numCreates] using hov)
    | create u =>
      have hnc : numCreates (Op.create u :: rest) = numCreates rest + 1 := rfl
      have hc1 : s.counter + 1 < 2 ^ 64 := by omega
      have hid : (s.counter + 1) % 2 ^ 64 = s.counter + 1 := Nat.mod_eq_of_lt hc1
      have hmain := ih (UsersState.mk (insertKey s.users (s.counter + 1) u)
          (s.counter + 1))
          (show s.counter + 1 + numCreates rest < 2 ^ 64 by omega)
      simp only [runTrace, UsersState.create_user, hid]
      constructor
      · intro i hi
        rcases List.mem_cons.mp hi with h | h
        · omega
        · have h2 : s.counter + 1 < i := hmain.1 i h
          omega
      · rw [List.chain'_cons']
        refine ⟨?_, hmain.2⟩
        intro b hb
        exact hmain.1 b (List.mem_of_mem_head? hb)
    | update id r =>
      have hnc : numCreates (Op.update id r :: rest) = numCreates rest := rfl
      simp only [runTrace, applyOp]
      have hc : (s.update_user id r).2.counter = s.counter := counter_update_user s id r
      have hmain := ih (s.update_user id r).2 (by rw [hc]; omega)
      rw [hc] at hmain
      exact hmain
    | delete id =>
      have hnc : numCreates (Op.delete id :: rest) = numCreates rest := rfl
      simp only [runTrace, applyOp]
      have hc : (s.delete_user id).2.counter = s.counter := counter_delete_user s id
      have hmain := ih (s.delete_user id).2 (by rw [hc]; omega)
      rw [hc] at hmain
      exact hmain

/-! ### Claim theorems -/

/-- C1: `create_user` returns the prior counter value plus one and inserts the
record under that identifier (the operation is total — its return type carries
no error, so it can never signal `NotFound`); across any operation sequence on
one store instance, deletes included, the identifiers returned by the `create`
calls are strictly increasing and none is returned twice, provided the `u64`
counter does not overflow. -/
theorem create_allocates_monotonic_unique_ids (s : UsersState) (r : UserWithoutId)
    (ops : List Op) (h1 : s.counter + 1 < 2 ^ 64)
    (hov : s.counter + numCreates ops < 2 ^ 64) :
    (s.create_user r).1 = s.counter + 1 ∧
      lookupKey (s.create_user r).2.users (s.counter + 1) = some r ∧
      List.Chain' (· < ·) (runTrace s ops).2 ∧ (runTrace s ops).2.Nodup := by
  have hid : (s.counter + 1) % 2 ^ 64 = s.counter + 1 := Nat.mod_eq_of_lt h1
  refine ⟨?_, ?_, ?_, ?_⟩
  · exact hid
  · show lookupKey (insertKey s.users ((s.counter + 1) % 2 ^ 64) r)
      (s.counter + 1) = some r
    rw [hid]
    exact lookupKey_insertKey_self s.users (s.counter + 1) r
  · exact (trace_ids_increasing s ops hov).2
  · have hpw := List.chain'_iff_pairwise.mp (trace_ids_increasing s ops hov).2
    exact hpw.imp fun hlt => Nat.ne_of_lt hlt

theorem create_allocates_monotonic_unique_ids_witness :
    (UsersState.new.create_user ⟨"jdoe", "j@x.com"⟩).1 = UsersState.new.counter + 1 ∧
      lookupKey (UsersState.new.create_user ⟨"jdoe", "j@x.com"⟩).2.users
        (UsersState.new.counter + 1) = some ⟨"jdoe", "j@x.com"⟩ ∧
      List.Chain' (· < ·)
        (runTrace UsersState.new
          [Op.create ⟨"a", "a@x.com"⟩, Op.delete 1, Op.create ⟨"b", "b@x.com"⟩]).2 ∧
      (runTrace UsersState.new
        [Op.create ⟨"a", "a@x.com"⟩, Op.delete 1, Op.create ⟨"b", "b@x.com"⟩]).2.Nodup :=
  create_allocates_monotonic_unique_ids UsersState.new ⟨"jdoe", "j@x.com"⟩
    [Op.create ⟨"a", "a@x.com"⟩, Op.delete 1, Op.create ⟨"b", "b@x.com"⟩]
    (by decide) (by decide)

/-- C2: when `k` is bound to a stored record, `update_user k req` succeeds and
the record stored afterwards has exactly the `some` fields of `req`
overwritten, while each `none` field keeps its prior value. -/
theorem update_merges_only_present_fields (s : UsersState) (k : Nat)
    (u : UserWithoutId) (req : UpdateUserRequest)
    (h : lookupKey s.users k = some u) :
    (s.update_user k req).1 = Except.ok () ∧
      lookupKey (s.update_user k req).2.users k =
        some { name := req.name.getD u.name, email := req.email.getD u.email } := by
  obtain ⟨nm, em⟩ := req
  obtain ⟨un, ue⟩ := u
  cases nm <;> cases em <;>
    simp [UsersState.update_user, h, lookupKey_insertKey_self]

theorem update_merges_only_present_fields_witness :
    (UsersState.update_user ⟨[(1, ⟨"A", "a@x.com"⟩)], 1⟩ 1
        ⟨some "B", none⟩).1 = Except.ok () ∧
      lookupKey (UsersState.update_user ⟨[(1, ⟨"A", "a@x.com"⟩)], 1⟩ 1
        ⟨some "B", none⟩).2.users 1 = some ⟨"B", "a@x.com"⟩ := by
  have h := update_merges_only_present_fields ⟨[(1, ⟨"A", "a@x.com"⟩)], 1⟩ 1
    ⟨"A", "a@x.com"⟩ ⟨some "B", none⟩ rfl
  exact ⟨h.1, h.2.trans rfl⟩

/-- C3: for an identifier absent from the mapping, the `get` handler,
`update_user`, and `delete_user` each signal `MissingUser` carrying exactly
that identifier, and `update_user` and `delete_user` return the whole store —
mapping and counter — unchanged. -/
theorem absent_id_notfound_store_unchanged (s : UsersState) (id : Nat)
    (req : UpdateUserRequest) (h : lookupKey s.users id = none) :
    getUserHandler s id = Except.error { id := id } ∧
      s.update_user id req = (Except.error { id := id }, s) ∧
      s.delete_user id = (Except.error { id := id }, s) :=
  notfound_of_lookup_none s id req h

theorem absent_id_notfound_store_unchanged_witness :
    getUserHandler ⟨[(1, ⟨"A", "a@x.com"⟩)], 1⟩ 2 = Except.error { id := 2 } ∧
      UsersState.update_user ⟨[(1, ⟨"A", "a@x.com"⟩)], 1⟩ 2 ⟨none, none⟩ =
        (Except.error { id := 2 }, ⟨[(1, ⟨"A", "a@x.com"⟩)], 1⟩) ∧
      UsersState.delete_user ⟨[(1, ⟨"A", "a@x.com"⟩)], 1⟩ 2 =
        (Except.error { id := 2 }, ⟨[(1, ⟨"A", "a@x.com"⟩)], 1⟩) :=
  absent_id_notfound_store_unchanged ⟨[(1, ⟨"A", "a@x.com"⟩)], 1⟩ 2 ⟨none, none⟩ rfl

/-- C5: immediately after `create_user r` returns an identifier, `get_user` at
that identifier succeeds and returns exactly the field values of `r`. -/
theorem get_after_create (s : UsersState) (r : UserWithoutId) :
    (s.create_user r).2.get_user (s.create_user r).1 =
      some { id := (s.create_user r).1, name := r.name, email := r.email } := by
  simp [UsersState.create_user, UsersState.get_user, lookupKey_insertKey_self]

theorem get_after_create_witness :
    (UsersState.new.create_user ⟨"jdoe", "j@x.com"⟩).2.get_user
        (UsersState.new.create_user ⟨"jdoe", "j@x.com"⟩).1 =
      some ⟨(UsersState.new.create_user ⟨"jdoe", "j@x.com"⟩).1, "jdoe", "j@x.com"⟩ :=
  get_after_create UsersState.new ⟨"jdoe", "j@x.com"⟩

/-- C7: on the freshly constructed store, `get 0`, `update 0` with any
request, and `delete 0` all signal `MissingUser` carrying identifier 0. -/
theorem fresh_store_notfound_zero (req : UpdateUserRequest) :
    getUserHandler UsersState.new 0 = Except.error { id := 0 } ∧
      (UsersState.new.update_user 0 req).1 = Except.error { id := 0 } ∧
      (UsersState.new.delete_user 0).1 = Except.error { id := 0 } := by
  have h := notfound_of_lookup_none UsersState.new 0 req rfl
  exact ⟨h.1, by rw [h.2.1], by rw [h.2.2]⟩

theorem fresh_store_notfound_zero_witness :
    getUserHandler UsersState.new 0 = Except.error { id := 0 } ∧
      (UsersState.new.update_user 0 ⟨none, none⟩).1 = Except.error { id := 0 } ∧
      (UsersState.new.delete_user 0).1 = Except.error { id := 0 } :=
  fresh_store_notfound_zero ⟨none, none⟩

/-- C4: once `delete_user k` succeeds, `k` is gone for good: after any further
sequence of operations (with no counter overflow), `get`, `update`, and
`delete` at `k` all signal `MissingUser k`, and no `create` call in the
sequence ever returns `k`. -/
theorem delete_is_terminal (s : UsersState) (k : Nat) (req : UpdateUserRequest)
    (ops : List Op) (hwf : WF s) (hdel : (s.delete_user k).1 = Except.ok ())
    (hov : s.counter + numCreates ops < 2 ^ 64) :
    getUserHandler (runTrace (s.delete_user k).2 ops).1 k = Except.error { id := k } ∧
      ((runTrace (s.delete_user k).2 ops).1.update_user k req).1 =
        Except.error { id := k } ∧
      ((runTrace (s.delete_user k).2 ops).1.delete_user k).1 =
        Except.error { id := k } ∧
      k ∉ (runTrace (s.delete_user k).2 ops).2 := by
  cases hl : lookupKey s.users k with
  | none => simp [UsersState.delete_user, hl] at hdel
  | some u =>
    have husers : (s.delete_user k).2.users = removeKey s.users k := by
      simp [UsersState.delete_user, hl]
    have hcnt : (s.delete_user k).2.counter = s.counter := counter_delete_user s k
    have hk1 : lookupKey (s.delete_user k).2.users k = none := by
      rw [husers]
      exact lookupKey_removeKey_self s.users k
    have hle : k ≤ s.counter := hwf (k, u) (lookupKey_some_mem s.users k u hl)
    have hg := trace_preserves_gone (s.delete_user k).2 k ops hk1
      (by rw [hcnt]; exact hle) (by rw [hcnt]; exact hov)
    have hnf := notfound_of_lookup_none (runTrace (s.delete_user k).2 ops).1 k req hg.1
    exact ⟨hnf.1, by rw [hnf.2.1], by rw [hnf.2.2], hg.2.2⟩

theorem delete_is_terminal_witness :
    WF ⟨[(1, ⟨"A", "a@x.com"⟩)], 1⟩ ∧
      getUserHandler
        (runTrace (UsersState.delete_user ⟨[(1, ⟨"A", "a@x.com"⟩)], 1⟩ 1).2
          [Op.create ⟨"B", "b@x.com"⟩]).1 1 = Except.error { id := 1 } ∧
      1 ∉ (runTrace (UsersState.delete_user ⟨[(1, ⟨"A", "a@x.com"⟩)], 1⟩ 1).2
        [Op.create ⟨"B", "b@x.com"⟩]).2 := by
  have hwf : WF ⟨[(1, ⟨"A", "a@x.com"⟩)], 1⟩ := by
    intro p hp
    simp only [List.mem_singleton] at hp
    rw [hp]
  have h := delete_is_terminal ⟨[(1, ⟨"A", "a@x.com"⟩)], 1⟩ 1 ⟨none, none⟩
    [Op.create ⟨"B", "b@x.com"⟩] hwf rfl (by decide)
  exact ⟨hwf, h.1, h.2.2.2⟩

/-- C6: the freshly constructed store has an empty mapping and counter 0, and
each of the five operations preserves the invariant that every key in the
mapping is at most the counter's last-issued value (given the counter does
not overflow). -/
theorem new_empty_and_invariant_preserved (s : UsersState) (op : Op)
    (hwf : WF s) (hov : s.counter + 1 < 2 ^ 64) :
    UsersState.new.users = [] ∧ UsersState.new.counter = 0 ∧ WF (applyOp s op) := by
  refine ⟨rfl, rfl, ?_⟩
  cases op with
  | list => exact hwf
  | get id => exact hwf
  | create u =>
    have hid : (s.counter + 1) % 2 ^ 64 = s.counter + 1 := Nat.mod_eq_of_lt hov
    intro p hp
    show p.1 ≤ (s.counter + 1) % 2 ^ 64
    rw [hid]
    have hp2 : p ∈ insertKey s.users ((s.counter + 1) % 2 ^ 64) u := hp
    rw [hid] at hp2
    rcases mem_insertKey s.users (s.counter + 1) u p hp2 with h | h
    · have := hwf p h
      omega
    · rw [h]
  | update id r =>
    cases hl : lookupKey s.users id with
    | none =>
      have hs : (s.update_user id r).2 = s := by simp [UsersState.update_user, hl]
      show WF (s.update_user id r).2
      rw [hs]
      exact hwf
    | some u =>
      have hus : ∃ w, (s.update_user id r).2.users = insertKey s.users id w := by
        simp only [UsersState.update_user, hl]
        exact ⟨_, rfl⟩
      obtain ⟨w, hw⟩ := hus
      have hcnt : (s.update_user id r).2.counter = s.counter := counter_update_user s id r
      intro p hp
      simp only [applyOp] at hp ⊢
      rw [hw] at hp
      rw [hcnt]
      rcases mem_insertKey s.users id w p hp with h | h
      · exact hwf p h
      · rw [h]
        exact hwf (id, u) (lookupKey_some_mem s.users id u hl)
  | delete id =>
    cases hl : lookupKey s.users id with
    | none =>
      have hs : (s.delete_user id).2 = s := by simp [UsersState.delete_user, hl]
      show WF (s.delete_user id).2
      rw [hs]
      exact hwf
    | some u =>
      have hus : (s.delete_user id).2.users = removeKey s.users id := by
        simp [UsersState.delete_user, hl]
      have hcnt : (s.delete_user id).2.counter = s.counter := counter_delete_user s id
      intro p hp
      simp only [applyOp] at hp ⊢
      rw [hus] at hp
      rw [hcnt]
      exact hwf p (mem_removeKey s.users id p hp)

theorem new_empty_and_invariant_preserved_witness :
    UsersState.new.users = [] ∧ UsersState.new.counter = 0 ∧
      WF (applyOp UsersState.new (Op.create ⟨"jdoe", "j@x.com"⟩)) :=
  new_empty_and_invariant_preserved UsersState.new (Op.create ⟨"jdoe", "j@x.com"⟩)
    (by intro p hp; cases hp) (by decide)

/-- C9: `get_users` returns exactly one entry per entry of the mapping (same
length, and every mapping entry appears as its `(id, record)` image),
`get_user` returns the stored record when the identifier is present, and
neither call changes any part of the store: as store operations both are the
identity on the state. -/
theorem list_get_readonly (s : UsersState) (id : Nat) (u : UserWithoutId)
    (h : lookupKey s.users id = some u) :
    s.get_users.length = s.users.length ∧
      (∀ p ∈ s.users, (⟨p.1, p.2.name, p.2.email⟩ : User) ∈ s.get_users) ∧
      s.get_user id = some ⟨id, u.name, u.email⟩ ∧
      applyOp s Op.list = s ∧ applyOp s (Op.get id) = s := by
  refine ⟨?_, ?_, ?_, rfl, rfl⟩
  · simp [UsersState.get_users]
  · intro p hp
    exact List.mem_map.mpr ⟨p, hp, rfl⟩
  · simp [UsersState.get_user, h]

theorem list_get_readonly_witness :
    UsersState.get_users ⟨[(1, ⟨"A", "a@x.com"⟩)], 1⟩ =
        [⟨1, "A", "a@x.com"⟩] ∧
      UsersState.get_user ⟨[(1, ⟨"A", "a@x.com"⟩)], 1⟩ 1 = some ⟨1, "A", "a@x.com"⟩ ∧
      applyOp ⟨[(1, ⟨"A", "a@x.com"⟩)], 1⟩ Op.list = ⟨[(1, ⟨"A", "a@x.com"⟩)], 1⟩ := by
  have h := list_get_readonly ⟨[(1, ⟨"A", "a@x.com"⟩)], 1⟩ 1 ⟨"A", "a@x.com"⟩ rfl
  exact ⟨rfl, h.2.2.1, h.2.2.2.1⟩

/-- C10: on an identifier bound in the mapping, the all-absent partial update
succeeds and leaves the store exactly unchanged, and any partial update is
idempotent: applying it a second time returns the same result and the same
store state as the first application. -/
theorem update_noop_and_idempotent (s : UsersState) (id : Nat)
    (u : UserWithoutId) (req : UpdateUserRequest)
    (h : lookupKey s.users id = some u) :
    s.update_user id ⟨none, none⟩ = (Except.ok (), s) ∧
      (s.update_user id req).2.update_user id req = s.update_user id req := by
  constructor
  · have hins := insertKey_lookup_self s.users id u h
    simp [UsersState.update_user, h, hins]
  · obtain ⟨nm, em⟩ := req
    obtain ⟨un, ue⟩ := u
    cases nm <;> cases em <;>
      simp [UsersState.update_user, h, lookupKey_insertKey_self, insertKey_lookup_self]

theorem update_noop_and_idempotent_witness :
    UsersState.update_user ⟨[(1, ⟨"A", "a@x.com"⟩)], 1⟩ 1 ⟨none, none⟩ =
        (Except.ok (), ⟨[(1, ⟨"A", "a@x.com"⟩)], 1⟩) ∧
      (UsersState.update_user ⟨[(1, ⟨"A", "a@x.com"⟩)], 1⟩ 1
          ⟨some "B", none⟩).2.update_user 1 ⟨some "B", none⟩ =
        UsersState.update_user ⟨[(1, ⟨"A", "a@x.com"⟩)], 1⟩ 1 ⟨some "B", none⟩ :=
  update_noop_and_idempotent ⟨[(1, ⟨"A", "a@x.com"⟩)], 1⟩ 1 ⟨"A", "a@x.com"⟩
    ⟨some "B", none⟩ rfl
